import Mathlib

/-!
Shallow embedding of the sorted-set-difference core of `src/jkjs/util.js`:
`ensureSorted`, `requireSorted`, `getRemaining`, `getRemainingIter`.
Sequences of JS numbers are modelled as `List Int` (the algorithms only use
order comparisons). In-place mutation is modelled by returning the post-state
of each caller-owned sequence explicitly.
-/

/-- Scan of `ensureSorted`'s loop from a given previous value: returns `false`
iff some element is strictly less than its predecessor (`v < prev`). -/
def scanOkFrom : Int → List Int → Bool
  | _, [] => true
  | prev, v :: rest => if v < prev then false else scanOkFrom v rest

/-- Full scan of `ensureSorted`: `prev` starts at negative infinity, so the
first element never triggers; after it, `prev` is the previous element. -/
def scanOk : List Int → Bool
  | [] => true
  | v :: rest => scanOkFrom v rest

/-- Accumulation of the `swapped` diagnostic list in `requireSorted`'s
`forEach` scan, given the current `prev` value and `run` flag. -/
def swappedAux : Int → Bool → List Int → List Int
  | _, _, [] => []
  | prev, run, v :: rest =>
    if v < prev then (if run then [v] else [prev, v]) ++ swappedAux v true rest
    else swappedAux v false rest

/-- The `swapped` list computed by `requireSorted`: `prev` starts at negative
infinity and `run` at `false`, so the first element never triggers. -/
def swapped : List Int → List Int
  | [] => []
  | v :: rest => swappedAux v false rest

/-- Model of `requireSorted`: if the `swapped` diagnostic list is nonempty the
array is sorted in place with `d3.ascending` (ascending numeric order),
otherwise it is left untouched. Returns the post-state of the array. -/
def requireSorted (arr : List Int) : List Int :=
  if (swapped arr).isEmpty then arr else arr.mergeSort (fun a b => a ≤ b)

/-- Model of `ensureSorted`: empty arrays return immediately; otherwise the
scan either completes without mutation or hands off to `requireSorted` at the
first out-of-order element. Returns the post-state of the array. -/
def ensureSorted (arr : List Int) : List Int :=
  if arr.isEmpty then arr
  else if scanOk arr then arr else requireSorted arr

/-- The two-pointer merge loop of `getRemaining` together with the trailing
loop that emits the rest of `ixs` once `minus` is exhausted. Emitting and
advancing `p` is modelled by consing onto the recursive call on the tail;
advancing `q` keeps `ixs` intact. In the equal case only `p` advances. -/
def mergeDiff : List Int → List Int → List Int
  | xs, [] => xs
  | [], _ :: _ => []
  | x :: xs, y :: ys =>
    if x < y then x :: mergeDiff xs (y :: ys)
    else if x > y then mergeDiff (x :: xs) ys
    else mergeDiff xs (y :: ys)
termination_by xs ys => xs.length + ys.length

/-- Post-state of a `getRemaining` call: the returned array and the contents
of the two caller-owned arrays on return. -/
structure DiffState where
  res : List Int
  ixsAfter : List Int
  minusAfter : List Int
deriving Repr, DecidableEq

/-- Model of `getRemaining` including its effect on the caller's arrays: if
either input is empty, `ixs` itself is returned and nothing is touched;
otherwise both arrays pass through `ensureSorted` (possibly sorting them in
place) and the merge loop produces the result. -/
def getRemainingFull (ixs minus : List Int) : DiffState :=
  if ixs.isEmpty || minus.isEmpty then ⟨ixs, ixs, minus⟩
  else
    let ixs' := ensureSorted ixs
    let minus' := ensureSorted minus
    ⟨mergeDiff ixs' minus', ixs', minus'⟩

/-- The value returned by `getRemaining`. -/
def getRemaining (ixs minus : List Int) : List Int :=
  (getRemainingFull ixs minus).res

/-- The merge loop of `getRemainingIter`: identical control flow to the loop
of `getRemaining`, but each emitted element is passed to the consumer
callback `cb`, modelled as a state transformer, instead of being pushed onto
a result array. The trailing `for` loop is the `foldl` in the `minus`
exhausted case. -/
def mergeDiffIter {σ : Type} (cb : σ → Int → σ) : σ → List Int → List Int → σ
  | s, xs, [] => xs.foldl cb s
  | s, [], _ :: _ => s
  | s, x :: xs, y :: ys =>
    if x < y then mergeDiffIter cb (cb s x) xs (y :: ys)
    else if x > y then mergeDiffIter cb s (x :: xs) ys
    else mergeDiffIter cb s xs (y :: ys)
termination_by _ xs ys => xs.length + ys.length

/-- Model of `getRemainingIter`: if either input is empty, `ixs.forEach(cb)`;
otherwise both arrays pass through `ensureSorted` and the merge loop streams
the emitted elements to `cb`. -/
def getRemainingIter {σ : Type} (ixs minus : List Int) (cb : σ → Int → σ) (s : σ) : σ :=
  if ixs.isEmpty || minus.isEmpty then ixs.foldl cb s
  else mergeDiffIter cb s (ensureSorted ixs) (ensureSorted minus)

/-- The sequence of values `getRemainingIter` passes to its callback, in call
order. -/
def getRemainingIterTrace (ixs minus : List Int) : List Int :=
  getRemainingIter ixs minus (fun acc v => acc ++ [v]) []

/-- Fuel-indexed version of the merge loop of `getRemaining`: each loop
iteration consumes one unit of fuel; `none` means the fuel ran out before the
loop exited. -/
def mergeDiffFuel : Nat → List Int → List Int → Option (List Int)
  | 0, _, _ => none
  | _ + 1, xs, [] => some xs
  | _ + 1, [], _ :: _ => some []
  | fuel + 1, x :: xs, y :: ys =>
    if x < y then (mergeDiffFuel fuel xs (y :: ys)).map (fun r => x :: r)
    else if x > y then mergeDiffFuel fuel (x :: xs) ys
    else mergeDiffFuel fuel xs (y :: ys)

/-- Fuel-indexed version of the merge loop of `getRemainingIter`. -/
def mergeDiffIterFuel {σ : Type} (cb : σ → Int → σ) :
    Nat → σ → List Int → List Int → Option σ
  | 0, _, _, _ => none
  | _ + 1, s, xs, [] => some (xs.foldl cb s)
  | _ + 1, s, [], _ :: _ => some s
  | fuel + 1, s, x :: xs, y :: ys =>
    if x < y then mergeDiffIterFuel cb fuel (cb s x) xs (y :: ys)
    else if x > y then mergeDiffIterFuel cb fuel s (x :: xs) ys
    else mergeDiffIterFuel cb fuel s xs (y :: ys)

/-! Helper lemmas about the sortedness scan and repair. -/

theorem scanOkFrom_iff (p : Int) (l : List Int) :
    scanOkFrom p l = true ↔ List.Chain (· ≤ ·) p l := by
  induction l generalizing p with
  | nil => simp [scanOkFrom]
  | cons v rest ih =>
    rw [scanOkFrom, List.chain_cons]
    by_cases h : v < p
    · simp [h, not_le.mpr h]
    · simp [h, not_lt.mp h, ih]

theorem scanOk_iff (l : List Int) : scanOk l = true ↔ List.Sorted (· ≤ ·) l := by
  cases l with
  | nil => simp [scanOk, List.Sorted]
  | cons v rest =>
    rw [scanOk, scanOkFrom_iff, List.chain_iff_pairwise]
    exact Iff.rfl

theorem swappedAux_nil_iff (p : Int) (run : Bool) (l : List Int) :
    swappedAux p run l = [] ↔ scanOkFrom p l = true := by
  induction l generalizing p run with
  | nil => simp [swappedAux, scanOkFrom]
  | cons v rest ih =>
    rw [swappedAux, scanOkFrom]
    by_cases h : v < p
    · simp [h]
      cases run <;> simp
    · simp [h, ih]

theorem swapped_nil_iff (l : List Int) : swapped l = [] ↔ scanOk l = true := by
  cases l with
  | nil => simp [swapped, scanOk]
  | cons v rest => exact swappedAux_nil_iff v false rest

theorem ensureSorted_of_sorted {l : List Int} (h : List.Sorted (· ≤ ·) l) :
    ensureSorted l = l := by
  rw [ensureSorted]
  by_cases he : l.isEmpty
  · simp [he]
  · simp [he, (scanOk_iff l).mpr h]

theorem ensureSorted_sorted (l : List Int) : List.Sorted (· ≤ ·) (ensureSorted l) := by
  rw [ensureSorted]
  by_cases he : l.isEmpty
  · simp only [he, if_true]
    rw [List.isEmpty_iff.mp he]
    exact List.sorted_nil
  · simp only [he, if_false]
    by_cases hs : scanOk l
    · simpa [hs] using (scanOk_iff l).mp hs
    · simp only [hs, if_false, requireSorted]
      have hsw : ¬ swapped l = [] := fun hn => hs ((swapped_nil_iff l).mp hn)
      simp only [List.isEmpty_iff, hsw, if_false]
      exact List.sorted_mergeSort' _

theorem ensureSorted_perm (l : List Int) : (ensureSorted l).Perm l := by
  rw [ensureSorted]
  by_cases he : l.isEmpty
  · simp [he]
  · simp only [he, if_false]
    by_cases hs : scanOk l
    · simp [hs]
    · simp only [hs, if_false, requireSorted]
      by_cases hsw : (swapped l).isEmpty
      · simp [hsw]
      · simp only [hsw, if_false]
        exact List.mergeSort_perm l _

/-! The merge loop on sorted inputs computes a filter: every occurrence of a
minuend value that appears anywhere in the subtrahend is dropped, because the
equal branch consumes only from the minuend. -/

theorem mergeDiff_eq_filter :
    ∀ (xs ys : List Int), List.Sorted (· ≤ ·) xs → List.Sorted (· ≤ ·) ys →
      mergeDiff xs ys = xs.filter (fun x => decide (x ∉ ys))
  | xs, [], _, _ => by simp [mergeDiff]
  | [], y :: ys, _, _ => by simp [mergeDiff]
  | x :: xs, y :: ys, hx, hy => by
    rcases lt_trichotomy x y with h | h | h
    · have hnm : x ∉ y :: ys := by
        intro hmem
        rcases List.mem_cons.mp hmem with rfl | hmem'
        · exact lt_irrefl x h
        · exact absurd h (not_lt.mpr ((List.sorted_cons.mp hy).1 x hmem'))
      rw [show mergeDiff (x :: xs) (y :: ys) = x :: mergeDiff xs (y :: ys) by
        simp [mergeDiff, h]]
      rw [mergeDiff_eq_filter xs (y :: ys) hx.of_cons hy, List.filter_cons]
      simp [hnm]
    · subst h
      rw [show mergeDiff (x :: xs) (x :: ys) = mergeDiff xs (x :: ys) by
        simp [mergeDiff]]
      rw [mergeDiff_eq_filter xs (x :: ys) hx.of_cons hy, List.filter_cons]
      simp
    · rw [show mergeDiff (x :: xs) (y :: ys) = mergeDiff (x :: xs) ys by
        simp [mergeDiff, h, not_lt.mpr (le_of_lt h)]]
      rw [mergeDiff_eq_filter (x :: xs) ys hx hy.of_cons]
      refine (List.filter_congr ?_).symm
      intro a ha
      have hya : y < a := by
        rcases List.mem_cons.mp ha with rfl | ha'
        · exact h
        · exact lt_of_lt_of_le h ((List.sorted_cons.mp hx).1 a ha')
      simp only [decide_eq_decide, List.mem_cons]
      constructor
      · intro hn hmem
        exact hn (Or.inr hmem)
      · intro hn hmem
        rcases hmem with rfl | hmem'
        · exact lt_irrefl a hya
        · exact hn hmem'
termination_by xs ys => xs.length + ys.length

theorem getRemaining_eq_filter (A B : List Int)
    (hA : List.Sorted (· ≤ ·) A) (hB : List.Sorted (· ≤ ·) B) :
    getRemaining A B = A.filter (fun a => decide (a ∉ B)) := by
  rw [getRemaining, getRemainingFull]
  cases hAe : A.isEmpty
  · cases hBe : B.isEmpty
    · simp only [Bool.or_self, Bool.false_or, if_false]
      rw [ensureSorted_of_sorted hA, ensureSorted_of_sorted hB]
      exact mergeDiff_eq_filter A B hA hB
    · rw [List.isEmpty_iff.mp hBe]
      simp
  · rw [List.isEmpty_iff.mp hAe]
    simp

/-! Streaming form: the loop of `getRemainingIter` delivers to the callback
exactly the elements the loop of `getRemaining` pushes, in the same order. -/

theorem foldl_snoc_eq (s l : List Int) :
    l.foldl (fun acc v => acc ++ [v]) s = s ++ l := by
  induction l generalizing s with
  | nil => simp
  | cons v rest ih => simp [ih]

theorem mergeDiffIter_eq_foldl {σ : Type} (cb : σ → Int → σ) :
    ∀ (s : σ) (xs ys : List Int),
      mergeDiffIter cb s xs ys = (mergeDiff xs ys).foldl cb s
  | s, xs, [] => by simp [mergeDiffIter, mergeDiff]
  | s, [], y :: ys => by simp [mergeDiffIter, mergeDiff]
  | s, x :: xs, y :: ys => by
    rcases lt_trichotomy x y with h | h | h
    · rw [show mergeDiffIter cb s (x :: xs) (y :: ys) =
          mergeDiffIter cb (cb s x) xs (y :: ys) by simp [mergeDiffIter, h]]
      rw [show mergeDiff (x :: xs) (y :: ys) = x :: mergeDiff xs (y :: ys) by
        simp [mergeDiff, h]]
      rw [mergeDiffIter_eq_foldl cb (cb s x) xs (y :: ys), List.foldl_cons]
    · subst h
      rw [show mergeDiffIter cb s (x :: xs) (x :: ys) =
          mergeDiffIter cb s xs (x :: ys) by simp [mergeDiffIter]]
      rw [show mergeDiff (x :: xs) (x :: ys) = mergeDiff xs (x :: ys) by
        simp [mergeDiff]]
      exact mergeDiffIter_eq_foldl cb s xs (x :: ys)
    · have hnl : ¬ x < y := not_lt.mpr (le_of_lt h)
      rw [show mergeDiffIter cb s (x :: xs) (y :: ys) =
          mergeDiffIter cb s (x :: xs) ys by simp [mergeDiffIter, h, hnl]]
      rw [show mergeDiff (x :: xs) (y :: ys) = mergeDiff (x :: xs) ys by
        simp [mergeDiff, h, hnl]]
      exact mergeDiffIter_eq_foldl cb s (x :: xs) ys
termination_by _ xs ys => xs.length + ys.length

theorem getRemainingIter_eq_foldl {σ : Type} (cb : σ → Int → σ) (s : σ)
    (ixs minus : List Int) :
    getRemainingIter ixs minus cb s = (getRemaining ixs minus).foldl cb s := by
  rw [getRemainingIter, getRemaining, getRemainingFull]
  cases he : (ixs.isEmpty || minus.isEmpty)
  · simp only [if_false]
    exact mergeDiffIter_eq_foldl cb s (ensureSorted ixs) (ensureSorted minus)
  · simp only [if_true]

/-! Fuel bounds: one element of one of the two lists is consumed per loop
iteration, so the length sum bounds the number of iterations. -/

theorem mergeDiffFuel_eq :
    ∀ (fuel : Nat) (xs ys : List Int), xs.length + ys.length < fuel →
      mergeDiffFuel fuel xs ys = some (mergeDiff xs ys)
  | 0, _, _, h => absurd h (Nat.not_lt_zero _)
  | _ + 1, xs, [], _ => by simp [mergeDiffFuel, mergeDiff]
  | _ + 1, [], _ :: _, _ => by simp [mergeDiffFuel, mergeDiff]
  | fuel + 1, x :: xs, y :: ys, h => by
    have hlt : xs.length + (y :: ys).length < fuel := by
      simp only [List.length_cons] at h ⊢
      omega
    have hlt' : (x :: xs).length + ys.length < fuel := by
      simp only [List.length_cons] at h ⊢
      omega
    rcases lt_trichotomy x y with hc | hc | hc
    · rw [show mergeDiff (x :: xs) (y :: ys) = x :: mergeDiff xs (y :: ys) by
        simp [mergeDiff, hc]]
      simp only [mergeDiffFuel, hc, if_true]
      rw [mergeDiffFuel_eq fuel xs (y :: ys) hlt]
      rfl
    · subst hc
      rw [show mergeDiff (x :: xs) (x :: ys) = mergeDiff xs (x :: ys) by
        simp [mergeDiff]]
      simp only [mergeDiffFuel, lt_irrefl, if_false]
      exact mergeDiffFuel_eq fuel xs (x :: ys) hlt
    · have hnl : ¬ x < y := not_lt.mpr (le_of_lt hc)
      rw [show mergeDiff (x :: xs) (y :: ys) = mergeDiff (x :: xs) ys by
        simp [mergeDiff, hc, hnl]]
      simp only [mergeDiffFuel, hnl, hc, if_false, if_true]
      exact mergeDiffFuel_eq fuel (x :: xs) ys hlt'

theorem mergeDiffIterFuel_eq {σ : Type} (cb : σ → Int → σ) :
    ∀ (fuel : Nat) (s : σ) (xs ys : List Int), xs.length + ys.length < fuel →
      mergeDiffIterFuel cb fuel s xs ys = some (mergeDiffIter cb s xs ys)
  | 0, _, _, _, h => absurd h (Nat.not_lt_zero _)
  | _ + 1, s, xs, [], _ => by simp [mergeDiffIterFuel, mergeDiffIter]
  | _ + 1, s, [], _ :: _, _ => by simp [mergeDiffIterFuel, mergeDiffIter]
  | fuel + 1, s, x :: xs, y :: ys, h => by
    have hlt : xs.length + (y :: ys).length < fuel := by
      simp only [List.length_cons] at h ⊢
      omega
    have hlt' : (x :: xs).length + ys.length < fuel := by
      simp only [List.length_cons] at h ⊢
      omega
    rcases lt_trichotomy x y with hc | hc | hc
    · rw [show mergeDiffIter cb s (x :: xs) (y :: ys) =
          mergeDiffIter cb (cb s x) xs (y :: ys) by simp [mergeDiffIter, hc]]
      simp only [mergeDiffIterFuel, hc, if_true]
      exact mergeDiffIterFuel_eq cb fuel (cb s x) xs (y :: ys) hlt
    · subst hc
      rw [show mergeDiffIter cb s (x :: xs) (x :: ys) =
          mergeDiffIter cb s xs (x :: ys) by simp [mergeDiffIter]]
      simp only [mergeDiffIterFuel, lt_irrefl, if_false]
      exact mergeDiffIterFuel_eq cb fuel s xs (x :: ys) hlt
    · have hnl : ¬ x < y := not_lt.mpr (le_of_lt hc)
      rw [show mergeDiffIter cb s (x :: xs) (y :: ys) =
          mergeDiffIter cb s (x :: xs) ys by simp [mergeDiffIter, hc, hnl]]
      simp only [mergeDiffIterFuel, hnl, hc, if_false, if_true]
      exact mergeDiffIterFuel_eq cb fuel s (x :: xs) ys hlt'

/-! Claim theorems. -/

/-- C1, counterexample: the claim predicts `getRemaining [1,1,2,3] [1] = [1,2,3]`,
but the code returns `[2,3]`: the equal branch advances only the minuend
pointer, so both copies of `1` are matched against the single subtrahend `1`. -/
theorem C1_counterexample : ¬ (getRemaining [1, 1, 2, 3] [1] = [1, 2, 3]) := by
  have h : getRemaining [1, 1, 2, 3] [1] = [2, 3] := by
    simp [getRemaining, getRemainingFull, ensureSorted, scanOk, scanOkFrom, mergeDiff]
  rw [h]
  decide

/-- C1, amended: when the current minuend element equals the current subtrahend
element, only the minuend pointer advances (the subtrahend element stays and can
match further duplicates), nothing is emitted; consequently every copy of a
duplicated minuend value is removed by a single matching subtrahend element, and
`getRemaining [1,1,2,3] [1] = [2,3]`. -/
theorem C1_equal_consumes_minuend_only (x y : Int) (xs ys : List Int) (h : x = y) :
    mergeDiff (x :: xs) (y :: ys) = mergeDiff xs (y :: ys) ∧
      getRemaining [1, 1, 2, 3] [1] = [2, 3] := by
  subst h
  refine ⟨by simp [mergeDiff], ?_⟩
  simp [getRemaining, getRemainingFull, ensureSorted, scanOk, scanOkFrom, mergeDiff]

/-- C1, witness for the amended theorem at `x = y = 1`, `xs = [1,2,3]`, `ys = []`. -/
theorem C1_equal_consumes_minuend_only_witness :
    (1 : Int) = 1 ∧
      (mergeDiff [1, 1, 2, 3] [1] = mergeDiff [1, 2, 3] [1] ∧
        getRemaining [1, 1, 2, 3] [1] = [2, 3]) :=
  ⟨rfl, C1_equal_consumes_minuend_only 1 1 [1, 2, 3] [] rfl⟩

/-- C2: for every pair of inputs and every consumer callback (modelled as a state
transformer over an arbitrary state type), the values `getRemainingIter` passes
to the callback, in call order, are exactly the array `getRemaining` returns:
the trace equals the array, and folding any callback over that array equals
running the streaming form with it. -/
theorem C2_streaming_matches_batch (ixs minus : List Int) :
    getRemainingIterTrace ixs minus = getRemaining ixs minus ∧
      ∀ (σ : Type) (cb : σ → Int → σ) (s : σ),
        getRemainingIter ixs minus cb s = (getRemaining ixs minus).foldl cb s := by
  constructor
  · rw [getRemainingIterTrace, getRemainingIter_eq_foldl, foldl_snoc_eq]
    simp
  · intro σ cb s
    exact getRemainingIter_eq_foldl cb s ixs minus

/-- C3: after `ensureSorted` returns, the sequence is non-decreasing, for every
input sequence (duplicates, negative numbers and the empty sequence included). -/
theorem C3_ensureSorted_ascending (arr : List Int) :
    List.Sorted (· ≤ ·) (ensureSorted arr) :=
  ensureSorted_sorted arr

/-- C4: for ascending inputs, applying the difference with the same subtrahend a
second time changes nothing. -/
theorem C4_difference_idempotent (A B : List Int)
    (hA : List.Sorted (· ≤ ·) A) (hB : List.Sorted (· ≤ ·) B) :
    getRemaining (getRemaining A B) B = getRemaining A B := by
  have hR := getRemaining_eq_filter A B hA hB
  have hRs : List.Sorted (· ≤ ·) (getRemaining A B) := by
    rw [hR]
    exact List.Pairwise.filter _ hA
  rw [getRemaining_eq_filter (getRemaining A B) B hRs hB, hR]
  refine List.filter_eq_self.mpr ?_
  intro a ha
  exact (List.mem_filter.mp ha).2

/-- C4, witness at `A = [1,2,3]`, `B = [2]`. -/
theorem C4_difference_idempotent_witness :
    List.Sorted (· ≤ ·) [(1 : Int), 2, 3] ∧ List.Sorted (· ≤ ·) [(2 : Int)] ∧
      getRemaining (getRemaining [1, 2, 3] [2]) [2] = getRemaining [1, 2, 3] [2] :=
  ⟨by decide, by decide, C4_difference_idempotent [1, 2, 3] [2] (by decide) (by decide)⟩

/-- C5: for ascending inputs, the sequence `getRemaining` returns is ascending. -/
theorem C5_result_ascending (A B : List Int)
    (hA : List.Sorted (· ≤ ·) A) (hB : List.Sorted (· ≤ ·) B) :
    List.Sorted (· ≤ ·) (getRemaining A B) := by
  rw [getRemaining_eq_filter A B hA hB]
  exact List.Pairwise.filter _ hA

/-- C5, witness at `A = [1,3]`, `B = [2,3]`. -/
theorem C5_result_ascending_witness :
    List.Sorted (· ≤ ·) [(1 : Int), 3] ∧ List.Sorted (· ≤ ·) [(2 : Int), 3] ∧
      List.Sorted (· ≤ ·) (getRemaining [1, 3] [2, 3]) :=
  ⟨by decide, by decide, C5_result_ascending [1, 3] [2, 3] (by decide) (by decide)⟩

/-- C6: when both inputs are already ascending, `ensureSorted` performs no
mutation and `getRemaining` leaves both caller-owned arrays with exactly their
original contents on return. -/
theorem C6_no_mutation_when_sorted (ixs minus : List Int)
    (h1 : List.Sorted (· ≤ ·) ixs) (h2 : List.Sorted (· ≤ ·) minus) :
    ensureSorted ixs = ixs ∧ (getRemainingFull ixs minus).ixsAfter = ixs ∧
      (getRemainingFull ixs minus).minusAfter = minus := by
  refine ⟨ensureSorted_of_sorted h1, ?_, ?_⟩ <;>
    · rw [getRemainingFull]
      cases he : (ixs.isEmpty || minus.isEmpty) <;>
        simp [ensureSorted_of_sorted h1, ensureSorted_of_sorted h2]

/-- C6, witness at `ixs = [1,2]`, `minus = [1]`. -/
theorem C6_no_mutation_when_sorted_witness :
    List.Sorted (· ≤ ·) [(1 : Int), 2] ∧ List.Sorted (· ≤ ·) [(1 : Int)] ∧
      (ensureSorted [1, 2] = [1, 2] ∧ (getRemainingFull [1, 2] [1]).ixsAfter = [1, 2] ∧
        (getRemainingFull [1, 2] [1]).minusAfter = [1]) :=
  ⟨by decide, by decide, C6_no_mutation_when_sorted [1, 2] [1] (by decide) (by decide)⟩

/-- C7: the two-pointer merge loop of `getRemaining` and the loop of
`getRemainingIter` exit within `length ixs + length minus` iterations on every
pair of finite inputs: fuel equal to the length sum plus one always suffices. -/
theorem C7_merge_loops_terminate (xs ys : List Int) :
    mergeDiffFuel (xs.length + ys.length + 1) xs ys = some (mergeDiff xs ys) ∧
      ∀ (σ : Type) (cb : σ → Int → σ) (s : σ),
        mergeDiffIterFuel cb (xs.length + ys.length + 1) s xs ys =
          some (mergeDiffIter cb s xs ys) := by
  constructor
  · exact mergeDiffFuel_eq _ xs ys (by omega)
  · intro σ cb s
    exact mergeDiffIterFuel_eq cb _ s xs ys (by omega)

/-- C8: for ascending inputs, `getRemaining A B` returns exactly those elements
of `A`, in order, whose value does not occur anywhere in `B`: every occurrence
of a value of `A` appearing in `B` is removed. -/
theorem C8_removes_all_occurrences (A B : List Int)
    (hA : List.Sorted (· ≤ ·) A) (hB : List.Sorted (· ≤ ·) B) :
    getRemaining A B = A.filter (fun a => decide (a ∉ B)) :=
  getRemaining_eq_filter A B hA hB

/-- C8, witness at `A = [1,1,2,3]`, `B = [1]`: both copies of `1` are removed. -/
theorem C8_removes_all_occurrences_witness :
    List.Sorted (· ≤ ·) [(1 : Int), 1, 2, 3] ∧ List.Sorted (· ≤ ·) [(1 : Int)] ∧
      getRemaining [1, 1, 2, 3] [1] = [2, 3] :=
  ⟨by decide, by decide, by
    rw [C8_removes_all_occurrences [1, 1, 2, 3] [1] (by decide) (by decide)]
    decide⟩

/-- C9: whenever either input is empty, `getRemaining` returns the minuend as
given and `getRemainingIter` delivers the minuend's elements in order, both
skipping the sortedness check and repair entirely, so even an unsorted minuend
comes back unchanged. -/
theorem C9_empty_shortcircuit (ixs minus : List Int) (h : ixs = [] ∨ minus = []) :
    getRemainingFull ixs minus = ⟨ixs, ixs, minus⟩ ∧
      getRemainingIterTrace ixs minus = ixs := by
  have he : (ixs.isEmpty || minus.isEmpty) = true := by
    rcases h with rfl | rfl <;> simp
  constructor
  · simp [getRemainingFull, he]
  · simp [getRemainingIterTrace, getRemainingIter, he, foldl_snoc_eq]

/-- C9, witness at the unsorted minuend `[3,1]` and empty subtrahend: the
minuend comes back exactly as given, unsorted. -/
theorem C9_empty_shortcircuit_witness :
    ([(3 : Int), 1] = [] ∨ ([] : List Int) = []) ∧
      (getRemainingFull [3, 1] [] = ⟨[3, 1], [3, 1], []⟩ ∧
        getRemainingIterTrace [3, 1] [] = [3, 1]) :=
  ⟨Or.inr rfl, C9_empty_shortcircuit [3, 1] [] (Or.inr rfl)⟩

/-- C10: `ensureSorted` preserves the multiset of elements: the sequence after
the call is a permutation of the sequence before the call. -/
theorem C10_ensureSorted_perm (arr : List Int) : (ensureSorted arr).Perm arr :=
  ensureSorted_perm arr
